import Mathlib

/-!
Shallow embedding of `extract_table.py` (pdf-table-extractor).

Python strings are embedded as `List Char` (or Lean `String`, whose data is a
`List Char`); Python `None` for a missing cell is `Option.none`; Python's
`ValueError` raised by `int()` is `Except.error ()`.  The file I/O performed
by `write_csv` is not modelled; `write_csv_rows` is the exact list of rows the
function hands to `csv.writer.writerows`.
-/

namespace ExtractTable

/-- Equality of `Except` values is decidable when it is on both components;
used only to evaluate the embedded functions on concrete inputs. -/
instance {ε α : Type} [DecidableEq ε] [DecidableEq α] : DecidableEq (Except ε α)
  | Except.error e, Except.error f =>
    if h : e = f then isTrue (by rw [h]) else isFalse (by intro hc; cases hc; exact h rfl)
  | Except.error _, Except.ok _ => isFalse (by intro hc; cases hc)
  | Except.ok _, Except.error _ => isFalse (by intro hc; cases hc)
  | Except.ok a, Except.ok b =>
    if h : a = b then isTrue (by rw [h]) else isFalse (by intro hc; cases hc; exact h rfl)

/-- Python whitespace as used by `str.strip()` / `str.split()`, restricted to
the ASCII whitespace characters. -/
def isPySpace (c : Char) : Bool :=
  c = ' ' || c = '\t' || c = '\n' || c = '\r' || c = '\x0b' || c = '\x0c'

/-- Python `str.strip()`: drop leading and trailing whitespace. -/
def pystrip (l : List Char) : List Char :=
  ((l.dropWhile isPySpace).reverse.dropWhile isPySpace).reverse

/-- Helper for Python `str.split()` with no arguments: returns the word
currently being built at the front and the completed words to its right. -/
def splitWsCore : List Char → List Char × List (List Char)
  | [] => ([], [])
  | c :: cs =>
    let r := splitWsCore cs
    if isPySpace c then ([], if r.1 = [] then r.2 else r.1 :: r.2)
    else (c :: r.1, r.2)

/-- Python `str.split()` with no arguments: the maximal runs of
non-whitespace characters, in order. -/
def splitWs (l : List Char) : List (List Char) :=
  let r := splitWsCore l
  if r.1 = [] then r.2 else r.1 :: r.2

/-- `clean_cell`: `None` becomes `""`; any string becomes
`" ".join(str(value).strip().split())`, i.e. stripped with every internal
whitespace run collapsed to one space. -/
def clean_cell : Option String → String
  | none => ""
  | some s => String.mk (List.intercalate [' '] (splitWs (pystrip s.data)))

/-- `clean_table`: clean every cell of every row and drop rows whose cells
are all empty after cleaning, keeping the remaining rows in order. -/
def clean_table : List (List (Option String)) → List (List String)
  | [] => []
  | row :: rest =>
    let cleaned_row := row.map clean_cell
    if cleaned_row.any (fun cell => cell != "") then cleaned_row :: clean_table rest
    else clean_table rest

/-- Re-embed a cleaned table as a raw table: running `clean_table` on its own
output feeds plain strings (never `None`) back through `clean_cell`. -/
def embedCleaned (t : List (List String)) : List (List (Option String)) :=
  t.map (fun row => row.map some)

/-- `max(len(row) for row in table)`, the value `normalize_column_count`
computes on a non-empty table (0 on the empty table, which the Python code
never evaluates thanks to its emptiness guard). -/
def maxCols (table : List (List String)) : Nat :=
  (table.map List.length).foldr max 0

/-- `normalize_column_count`: pad every row on the right with `""` up to the
longest row's length; the empty table passes through unchanged. -/
def normalize_column_count (table : List (List String)) : List (List String) :=
  if table = [] then table
  else table.map (fun row => row ++ List.replicate (maxCols table - row.length) "")

/-- The row sequence `write_csv` hands to `csv.writer.writerows`: when
`header_row` is set and `0 <= header_row < len(rows)`, the output is
`[rows[h]] + rows[:h] + rows[h+1:]`; otherwise the rows are unchanged. -/
def write_csv_rows (rows : List (List String)) (header_row : Option Int) : List (List String) :=
  match header_row with
  | some h =>
    if 0 ≤ h ∧ h < (rows.length : Int) then
      rows.getD h.toNat [] :: (rows.take h.toNat ++ rows.drop (h.toNat + 1))
    else rows
  | none => rows

/-- Python `s.split(",")`: split at every comma, keeping empty pieces
(`"".split(",") == [""]`). -/
def splitOnComma : List Char → List (List Char)
  | [] => [[]]
  | c :: cs =>
    let r := splitOnComma cs
    if c = ',' then [] :: r
    else
      match r with
      | [] => [[c]]
      | w :: ws => (c :: w) :: ws

/-- Python `part.split("-", 1)` for a part that contains a dash: the piece
before the first `'-'` and everything after it. -/
def splitDash1 : List Char → List Char × List Char
  | [] => ([], [])
  | c :: cs =>
    if c = '-' then ([], cs)
    else
      let r := splitDash1 cs
      (c :: r.1, r.2)

/-- Whether a character list starts with a decimal digit. -/
def headDigit : List Char → Bool
  | [] => false
  | d :: _ => d.isDigit

/-- Characters after the leading digit of a Python integer literal: digits,
with a single underscore allowed only between digits. -/
def digitsTail : List Char → Bool
  | [] => true
  | c :: rest =>
    if c = '_' then headDigit rest && digitsTail rest
    else c.isDigit && digitsTail rest

/-- A valid unsigned body for Python `int()`: a digit followed by digits and
well-placed underscores. -/
def digitsOk : List Char → Bool
  | [] => false
  | c :: rest => c.isDigit && digitsTail rest

/-- Numeric value of a digit string, ignoring underscores. -/
def digitsVal (l : List Char) : Nat :=
  (l.filter (fun c => c != '_')).foldl (fun n c => 10 * n + (c.toNat - '0'.toNat)) 0

/-- Python `int(string)`: whitespace is stripped, an optional single sign is
allowed, and the rest must be a valid digit string; `ValueError` is `none`. -/
def pyint (l : List Char) : Option Int :=
  match pystrip l with
  | '+' :: ds => if digitsOk ds then some (digitsVal ds) else none
  | '-' :: ds => if digitsOk ds then some (-(digitsVal ds : Int)) else none
  | t => if digitsOk t then some (digitsVal t) else none

/-- Python `range(lo, hi)` as a list: `lo, lo+1, ..., hi-1` (empty when
`hi <= lo`). -/
def rangeList (lo hi : Int) : List Int :=
  (List.range (hi - lo).toNat).map (fun (i : Nat) => lo + (i : Int))

/-- Insert an element into a strictly sorted list, skipping duplicates. -/
def insertUnique (x : Int) : List Int → List Int
  | [] => [x]
  | y :: ys =>
    if x = y then y :: ys
    else if x < y then x :: y :: ys
    else y :: insertUnique x ys

/-- Python `sorted(set(l))` for a list of ints. -/
def sortDedup (l : List Int) : List Int :=
  l.foldr insertUnique []

/-- One iteration of `parse_page_range`'s loop on a comma-separated part:
strip it; if it contains a dash, split once, parse both sides with `int`,
clamp (`start = max(1, ...)`, `end = min(total_pages, ...)`) and take
`range(start - 1, end)`; otherwise parse it as a single page number and keep
it only when it lies in `[1, total_pages]`.  An uncaught `ValueError` from
`int()` is `Except.error ()`. -/
def parsePart (total_pages : Int) (part0 : List Char) : Except Unit (List Int) :=
  let part := pystrip part0
  if '-' ∈ part then
    match pyint (splitDash1 part).1, pyint (splitDash1 part).2 with
    | some s0, some e0 => Except.ok (rangeList (max 1 s0 - 1) (min total_pages e0))
    | _, _ => Except.error ()
  else
    match pyint part with
    | some n => Except.ok (if 1 ≤ n ∧ n ≤ total_pages then [n - 1] else [])
    | none => Except.error ()

/-- The loop of `parse_page_range` over all comma-separated parts, collecting
page indices in order; the first `ValueError` aborts the whole call. -/
def parseParts (total_pages : Int) : List (List Char) → Except Unit (List Int)
  | [] => Except.ok []
  | p :: ps =>
    match parsePart total_pages p, parseParts total_pages ps with
    | Except.ok xs, Except.ok ys => Except.ok (xs ++ ys)
    | Except.error e, _ => Except.error e
    | _, Except.error e => Except.error e

/-- `parse_page_range(page_range_str, total_pages)`: split the string on
commas, process every part, and return `sorted(set(pages))`; a `ValueError`
raised by `int()` propagates to the caller as `Except.error ()`. -/
def parse_page_range (s : List Char) (total_pages : Int) : Except Unit (List Int) :=
  (parseParts total_pages (splitOnComma s)).map sortDedup

/-- A raw cell that is `None` or whitespace-only. -/
def blankCell : Option String → Bool
  | none => true
  | some s => s.data.all isPySpace

/-- The per-table loop body of `extract_tables`: clean each raw table; if it
is empty after cleaning, report and skip it; otherwise normalize it, count
it, and write its CSV file.  The result is the final count together with the
row lists written to the CSV files, in order (`write_csv_rows` of each
normalized table). -/
def process_tables (header_row : Option Int) :
    List (List (List (Option String))) → Nat × List (List (List String))
  | [] => (0, [])
  | t :: ts =>
    let cleaned := clean_table t
    if cleaned = [] then process_tables header_row ts
    else
      let r := process_tables header_row ts
      (r.1 + 1, write_csv_rows (normalize_column_count cleaned) header_row :: r.2)

/-! Lemmas about Python `str.split()` / `str.strip()`. -/

theorem splitWsCore_space (c : Char) (l : List Char) (h : isPySpace c = true) :
    splitWsCore (c :: l) = ([], if (splitWsCore l).1 = [] then (splitWsCore l).2
      else (splitWsCore l).1 :: (splitWsCore l).2) := by
  simp [splitWsCore, h]

theorem splitWsCore_nonspace (c : Char) (l : List Char) (h : isPySpace c = false) :
    splitWsCore (c :: l) = (c :: (splitWsCore l).1, (splitWsCore l).2) := by
  simp [splitWsCore, h]

theorem splitWs_space (c : Char) (l : List Char) (h : isPySpace c = true) :
    splitWs (c :: l) = splitWs l := by
  simp [splitWs, splitWsCore_space c l h]

theorem splitWsCore_all_space (t : List Char) (h : ∀ c ∈ t, isPySpace c = true) :
    splitWsCore t = ([], []) := by
  induction t with
  | nil => rfl
  | cons c cs ih =>
    rw [splitWsCore_space c cs (h c (List.mem_cons_self c cs)),
      ih (fun x hx => h x (List.mem_cons_of_mem c hx))]
    simp

theorem splitWsCore_append_word (w l : List Char) (hw : ∀ c ∈ w, isPySpace c = false) :
    splitWsCore (w ++ l) = (w ++ (splitWsCore l).1, (splitWsCore l).2) := by
  induction w with
  | nil => simp
  | cons c cs ih =>
    rw [List.cons_append, splitWsCore_nonspace c _ (hw c (List.mem_cons_self c cs)),
      ih (fun x hx => hw x (List.mem_cons_of_mem c hx))]
    simp

theorem splitWsCore_append_spaces (l t : List Char) (ht : ∀ c ∈ t, isPySpace c = true) :
    splitWsCore (l ++ t) = splitWsCore l := by
  induction l with
  | nil => simpa using splitWsCore_all_space t ht
  | cons c cs ih =>
    cases hc : isPySpace c with
    | true => rw [List.cons_append, splitWsCore_space _ _ hc, splitWsCore_space _ _ hc, ih]
    | false => rw [List.cons_append, splitWsCore_nonspace _ _ hc, splitWsCore_nonspace _ _ hc, ih]

theorem splitWs_append_spaces (l t : List Char) (ht : ∀ c ∈ t, isPySpace c = true) :
    splitWs (l ++ t) = splitWs l := by
  simp [splitWs, splitWsCore_append_spaces l t ht]

theorem splitWs_dropWhile (l : List Char) :
    splitWs (l.dropWhile isPySpace) = splitWs l := by
  induction l with
  | nil => rfl
  | cons c cs ih =>
    cases hc : isPySpace c with
    | true =>
      rw [List.dropWhile_cons]
      simp only [hc, if_true]
      rw [ih, splitWs_space c cs hc]
    | false =>
      rw [List.dropWhile_cons]
      simp only [hc]
      rw [if_neg (by simp)]

theorem splitWs_pystrip (l : List Char) : splitWs (pystrip l) = splitWs l := by
  unfold pystrip
  set m := l.dropWhile isPySpace with hm
  have h1 : m = (m.reverse.dropWhile isPySpace).reverse ++ (m.reverse.takeWhile isPySpace).reverse := by
    conv_lhs => rw [← List.reverse_reverse m,
      ← List.takeWhile_append_dropWhile isPySpace m.reverse]
    rw [List.reverse_append]
  calc splitWs ((m.reverse.dropWhile isPySpace).reverse)
      = splitWs ((m.reverse.dropWhile isPySpace).reverse
          ++ (m.reverse.takeWhile isPySpace).reverse) :=
        (splitWs_append_spaces _ _
          (fun c hc => List.mem_takeWhile_imp (List.mem_reverse.mp hc))).symm
    _ = splitWs m := by rw [← h1]
    _ = splitWs l := splitWs_dropWhile l

theorem splitWsCore_words (l : List Char) :
    (∀ c ∈ (splitWsCore l).1, isPySpace c = false) ∧
    (∀ w ∈ (splitWsCore l).2, w ≠ [] ∧ ∀ c ∈ w, isPySpace c = false) := by
  induction l with
  | nil => exact ⟨by simp [splitWsCore], by simp [splitWsCore]⟩
  | cons c cs ih =>
    cases hc : isPySpace c with
    | true =>
      rw [splitWsCore_space c cs hc]
      refine ⟨by simp, ?_⟩
      by_cases h1 : (splitWsCore cs).1 = []
      · simpa [h1] using ih.2
      · intro w hw
        rw [if_neg h1] at hw
        rcases List.mem_cons.mp hw with rfl | hw2
        · exact ⟨h1, ih.1⟩
        · exact ih.2 w hw2
    | false =>
      rw [splitWsCore_nonspace c cs hc]
      refine ⟨?_, ih.2⟩
      intro x hx
      rcases List.mem_cons.mp hx with rfl | hx2
      · exact hc
      · exact ih.1 x hx2

theorem splitWs_words (l : List Char) :
    ∀ w ∈ splitWs l, w ≠ [] ∧ ∀ c ∈ w, isPySpace c = false := by
  intro w hw
  simp only [splitWs] at hw
  by_cases h1 : (splitWsCore l).1 = []
  · exact (splitWsCore_words l).2 w (by simpa [h1] using hw)
  · rcases List.mem_cons.mp (by simpa [h1] using hw) with rfl | hw2
    · exact ⟨h1, (splitWsCore_words l).1⟩
    · exact (splitWsCore_words l).2 w hw2

theorem intercalate_sp_single (w : List Char) : List.intercalate [' '] [w] = w := by
  simp [List.intercalate]

theorem intercalate_sp_cons (w x : List Char) (t : List (List Char)) :
    List.intercalate [' '] (w :: x :: t) = w ++ ' ' :: List.intercalate [' '] (x :: t) := by
  simp [List.intercalate]

theorem splitWs_eq_of_core (l w : List Char) (ws : List (List Char))
    (h : splitWsCore l = (w, ws)) (hne : w ≠ []) : splitWs l = w :: ws := by
  simp [splitWs, h, hne]

theorem splitWs_intercalate (ws : List (List Char))
    (h : ∀ w ∈ ws, w ≠ [] ∧ ∀ c ∈ w, isPySpace c = false) :
    splitWs (List.intercalate [' '] ws) = ws := by
  induction ws with
  | nil => rfl
  | cons w t ih =>
    have hw := h w (List.mem_cons_self w t)
    cases t with
    | nil =>
      rw [intercalate_sp_single]
      have hcore : splitWsCore w = (w, []) := by
        simpa [splitWsCore] using splitWsCore_append_word w [] hw.2
      rw [splitWs_eq_of_core w w [] hcore hw.1]
    | cons x t2 =>
      have hrest : ∀ v ∈ x :: t2, v ≠ [] ∧ ∀ c ∈ v, isPySpace c = false :=
        fun v hv => h v (List.mem_cons_of_mem w hv)
      have ihr := ih hrest
      rw [intercalate_sp_cons]
      have hsp : splitWsCore (' ' :: List.intercalate [' '] (x :: t2))
          = ([], splitWs (List.intercalate [' '] (x :: t2))) := by
        rw [splitWsCore_space _ _ (by decide)]
        simp [splitWs]
      have hcore := splitWsCore_append_word w
        (' ' :: List.intercalate [' '] (x :: t2)) hw.2
      rw [hsp] at hcore
      simp only [List.append_nil] at hcore
      rw [splitWs_eq_of_core _ _ _ hcore hw.1, ihr]

/-! Lemmas about `clean_cell` and `clean_table`. -/

theorem clean_cell_idem (v : Option String) :
    clean_cell (some (clean_cell v)) = clean_cell v := by
  cases v with
  | none => rfl
  | some s =>
    show String.mk (List.intercalate [' ']
        (splitWs (pystrip (List.intercalate [' '] (splitWs (pystrip s.data))))))
      = String.mk (List.intercalate [' '] (splitWs (pystrip s.data)))
    rw [splitWs_pystrip, splitWs_intercalate _ (splitWs_words _)]

theorem clean_row_idem (row : List (Option String)) :
    ((row.map clean_cell).map some).map clean_cell = row.map clean_cell := by
  simp only [List.map_map, Function.comp_def]
  exact List.map_congr_left (fun a _ => clean_cell_idem a)

theorem clean_table_cons (r : List (Option String)) (ts : List (List (Option String))) :
    clean_table (r :: ts) = if (r.map clean_cell).any (fun cell => cell != "")
      then r.map clean_cell :: clean_table ts else clean_table ts := rfl

/-! Lemmas about `normalize_column_count`. -/

theorem maxCols_cons (a : List String) (ts : List (List String)) :
    maxCols (a :: ts) = max a.length (maxCols ts) := rfl

theorem maxCols_le (t : List (List String)) : ∀ r ∈ t, r.length ≤ maxCols t := by
  induction t with
  | nil => intro r hr; cases hr
  | cons a ts ih =>
    intro r hr
    rw [maxCols_cons]
    rcases List.mem_cons.mp hr with rfl | h2
    · exact Nat.le_max_left _ _
    · exact le_trans (ih r h2) (Nat.le_max_right _ _)

theorem maxCols_attained (t : List (List String)) (h : t ≠ []) :
    ∃ r ∈ t, r.length = maxCols t := by
  induction t with
  | nil => exact absurd rfl h
  | cons a ts ih =>
    cases ts with
    | nil =>
      refine ⟨a, List.mem_cons_self a [], ?_⟩
      rw [maxCols_cons]
      simp [maxCols]
    | cons b ts2 =>
      rcases ih (by simp) with ⟨r, hr, hlen⟩
      rcases Nat.le_total a.length (maxCols (b :: ts2)) with hle | hle
      · refine ⟨r, List.mem_cons_of_mem a hr, ?_⟩
        rw [maxCols_cons, Nat.max_eq_right hle]
        exact hlen
      · refine ⟨a, List.mem_cons_self a _, ?_⟩
        rw [maxCols_cons, Nat.max_eq_left hle]

theorem normalize_of_ne_nil (u : List (List String)) (h : u ≠ []) :
    normalize_column_count u
      = u.map (fun row => row ++ List.replicate (maxCols u - row.length) "") := by
  unfold normalize_column_count
  rw [if_neg h]

theorem normalize_row_length (t : List (List String)) :
    ∀ r ∈ normalize_column_count t, r.length = maxCols t := by
  intro r hr
  by_cases ht : t = []
  · subst ht; cases hr
  · rw [normalize_of_ne_nil t ht] at hr
    rcases List.mem_map.mp hr with ⟨row, hrow, rfl⟩
    have := maxCols_le t row hrow
    simp only [List.length_append, List.length_replicate]
    omega

theorem normalize_length (t : List (List String)) :
    (normalize_column_count t).length = t.length := by
  by_cases ht : t = []
  · subst ht; rfl
  · rw [normalize_of_ne_nil t ht, List.length_map]

theorem maxCols_const (u : List (List String)) (k : Nat) (hne : u ≠ [])
    (h : ∀ r ∈ u, r.length = k) : maxCols u = k := by
  induction u with
  | nil => exact absurd rfl hne
  | cons a ts ih =>
    have ha : a.length = k := h a (List.mem_cons_self a ts)
    cases ts with
    | nil =>
      rw [maxCols_cons, ha]
      simp [maxCols]
    | cons b t2 =>
      have hts : maxCols (b :: t2) = k :=
        ih (by simp) (fun r hr => h r (List.mem_cons_of_mem a hr))
      rw [maxCols_cons, ha, hts, Nat.max_self]

theorem normalize_idem (t : List (List String)) :
    normalize_column_count (normalize_column_count t) = normalize_column_count t := by
  by_cases ht : t = []
  · subst ht; rfl
  · have hne : normalize_column_count t ≠ [] := by
      intro h0
      have hlen := normalize_length t
      rw [h0] at hlen
      exact ht (List.length_eq_zero.mp hlen.symm)
    have hmc : maxCols (normalize_column_count t) = maxCols t :=
      maxCols_const _ _ hne (normalize_row_length t)
    rw [normalize_of_ne_nil _ hne, hmc]
    have hpad : ∀ r ∈ normalize_column_count t,
        r ++ List.replicate (maxCols t - r.length) "" = r := by
      intro r hr
      rw [normalize_row_length t r hr]
      simp
    rw [List.map_congr_left hpad]
    simp

theorem normalize_get (t : List (List String)) (i : Nat) (h : i < t.length) :
    ∃ r k, t.get? i = some r ∧
      (normalize_column_count t).get? i = some (r ++ List.replicate k "") := by
  have ht : t ≠ [] := by
    intro h0
    subst h0
    simp at h
  rw [normalize_of_ne_nil t ht]
  refine ⟨t.get ⟨i, h⟩, maxCols t - (t.get ⟨i, h⟩).length, List.get?_eq_get h, ?_⟩
  rw [List.get?_map, List.get?_eq_get h]
  rfl

/-! Lemmas about `write_csv_rows` and `process_tables`. -/

theorem getD_eq_get (l : List (List String)) (n : Nat) (h : n < l.length) :
    l.getD n [] = l.get ⟨n, h⟩ := by
  induction l generalizing n with
  | nil => simp at h
  | cons a ts ih =>
    cases n with
    | zero => rfl
    | succ m =>
      rw [List.getD_cons_succ]
      exact ih m (by simpa using h)

theorem getD_mem (l : List (List String)) (n : Nat) (h : n < l.length) :
    l.getD n [] ∈ l := by
  rw [getD_eq_get l n h]
  exact List.get_mem l n h

theorem write_csv_rows_none (rows : List (List String)) :
    write_csv_rows rows none = rows := rfl

theorem write_csv_rows_some (rows : List (List String)) (h : Int) :
    write_csv_rows rows (some h)
      = if 0 ≤ h ∧ h < (rows.length : Int)
        then rows.getD h.toNat [] :: (rows.take h.toNat ++ rows.drop (h.toNat + 1))
        else rows := rfl

theorem write_csv_rows_mem (rows : List (List String)) (hdr : Option Int) :
    ∀ r ∈ write_csv_rows rows hdr, r ∈ rows := by
  intro r hr
  cases hdr with
  | none => exact hr
  | some h =>
    rw [write_csv_rows_some] at hr
    by_cases hc : 0 ≤ h ∧ h < (rows.length : Int)
    · rw [if_pos hc] at hr
      rcases List.mem_cons.mp hr with rfl | h2
      · exact getD_mem rows h.toNat (by omega)
      · rw [← List.eraseIdx_eq_take_drop_succ] at h2
        exact (List.eraseIdx_sublist rows h.toNat).mem h2
    · rw [if_neg hc] at hr
      exact hr

theorem process_tables_cons (hdr : Option Int) (t : List (List (Option String)))
    (ts : List (List (List (Option String)))) :
    process_tables hdr (t :: ts)
      = if clean_table t = [] then process_tables hdr ts
        else ((process_tables hdr ts).1 + 1,
          write_csv_rows (normalize_column_count (clean_table t)) hdr
            :: (process_tables hdr ts).2) := rfl

theorem process_tables_written (hdr : Option Int) (ts : List (List (List (Option String)))) :
    ∀ w ∈ (process_tables hdr ts).2,
      ∃ t, w = write_csv_rows (normalize_column_count (clean_table t)) hdr := by
  induction ts with
  | nil => intro w hw; cases hw
  | cons t rest ih =>
    intro w hw
    rw [process_tables_cons] at hw
    by_cases hc : clean_table t = []
    · rw [if_pos hc] at hw
      exact ih w hw
    · rw [if_neg hc] at hw
      rcases List.mem_cons.mp hw with rfl | h2
      · exact ⟨t, rfl⟩
      · exact ih w h2

/-! Lemmas about `parse_page_range` and its helpers. -/

theorem dropWhile_eq_self (p : Char → Bool) (l : List Char) (h : ∀ c ∈ l, p c = false) :
    l.dropWhile p = l := by
  cases l with
  | nil => rfl
  | cons c cs => simp [List.dropWhile_cons, h c (List.mem_cons_self c cs)]

theorem dropWhile_all (p : Char → Bool) (l : List Char) (h : ∀ c ∈ l, p c = true) :
    l.dropWhile p = [] := by
  induction l with
  | nil => rfl
  | cons c cs ih =>
    simp [List.dropWhile_cons, h c (List.mem_cons_self c cs),
      ih (fun x hx => h x (List.mem_cons_of_mem c hx))]

theorem pystrip_eq_self (l : List Char) (h : ∀ c ∈ l, isPySpace c = false) :
    pystrip l = l := by
  unfold pystrip
  rw [dropWhile_eq_self _ _ h,
    dropWhile_eq_self _ _ (fun c hc => h c (List.mem_reverse.mp hc)),
    List.reverse_reverse]

theorem splitOnComma_no_comma (l : List Char) (h : ∀ c ∈ l, ¬ c = ',') :
    splitOnComma l = [l] := by
  induction l with
  | nil => rfl
  | cons c cs ih =>
    have hc : ¬ c = ',' := h c (List.mem_cons_self c cs)
    have hcs : splitOnComma cs = [cs] := ih (fun x hx => h x (List.mem_cons_of_mem c hx))
    simp [splitOnComma, hc, hcs]

theorem splitDash1_append (da db : List Char) (h : ¬ '-' ∈ da) :
    splitDash1 (da ++ '-' :: db) = (da, db) := by
  induction da with
  | nil => simp [splitDash1]
  | cons c cs ih =>
    by_cases hc : c = '-'
    · subst hc
      exact absurd (List.mem_cons_self '-' cs) h
    · have ihh := ih (fun hm => h (List.mem_cons_of_mem c hm))
      simp [splitDash1, hc, ihh]

theorem digitsTail_cons (c : Char) (cs : List Char) :
    digitsTail (c :: cs) = if c = '_' then headDigit cs && digitsTail cs
      else c.isDigit && digitsTail cs := rfl

theorem digitsTail_chars (l : List Char) :
    digitsTail l = true → ∀ c ∈ l, c.isDigit = true ∨ c = '_' := by
  induction l with
  | nil => intro _ c hc; cases hc
  | cons c cs ih =>
    intro h x hx
    rw [digitsTail_cons] at h
    by_cases hc : c = '_'
    · rw [if_pos hc, Bool.and_eq_true] at h
      rcases List.mem_cons.mp hx with rfl | h2
      · exact Or.inr hc
      · exact ih h.2 x h2
    · rw [if_neg hc, Bool.and_eq_true] at h
      rcases List.mem_cons.mp hx with rfl | h2
      · exact Or.inl h.1
      · exact ih h.2 x h2

theorem digitsOk_chars (l : List Char) (h : digitsOk l = true) :
    ∀ c ∈ l, c.isDigit = true ∨ c = '_' := by
  cases l with
  | nil => intro c hc; cases hc
  | cons c cs =>
    have hstep : digitsOk (c :: cs) = (c.isDigit && digitsTail cs) := rfl
    rw [hstep, Bool.and_eq_true] at h
    intro x hx
    rcases List.mem_cons.mp hx with rfl | h2
    · exact Or.inl h.1
    · exact digitsTail_chars cs h.2 x h2

theorem digit_not_special (c : Char) (h : c.isDigit = true ∨ c = '_') :
    isPySpace c = false ∧ ¬ c = ',' ∧ ¬ c = '-' := by
  rcases h with hd | rfl
  · refine ⟨?_, ?_, ?_⟩
    · cases hsp : isPySpace c with
      | false => rfl
      | true =>
        exfalso
        simp only [isPySpace, Bool.or_eq_true, decide_eq_true_eq] at hsp
        rcases hsp with ((((rfl | rfl) | rfl) | rfl) | rfl) | rfl <;> exact absurd hd (by decide)
    · intro h2
      subst h2
      exact absurd hd (by decide)
    · intro h2
      subst h2
      exact absurd hd (by decide)
  · exact ⟨by decide, by decide, by decide⟩

theorem mem_rangeList (lo hi x : Int) : x ∈ rangeList lo hi ↔ lo ≤ x ∧ x < hi := by
  simp only [rangeList, List.mem_map, List.mem_range]
  constructor
  · rintro ⟨i, hi2, rfl⟩
    omega
  · intro hx
    exact ⟨(x - lo).toNat, by omega, by omega⟩

theorem rangeList_pairwise (lo hi : Int) : (rangeList lo hi).Pairwise (· < ·) := by
  unfold rangeList
  exact List.Pairwise.map _ (fun a b hab => by omega) (List.pairwise_lt_range _)

theorem insertUnique_of_lt (x : Int) (l : List Int) (h : ∀ y ∈ l, x < y) :
    insertUnique x l = x :: l := by
  cases l with
  | nil => rfl
  | cons y ys =>
    have hxy := h y (List.mem_cons_self y ys)
    have hne : ¬ x = y := by omega
    simp [insertUnique, hne, hxy]

theorem sortDedup_cons (x : Int) (xs : List Int) :
    sortDedup (x :: xs) = insertUnique x (sortDedup xs) := rfl

theorem sortDedup_eq_self (l : List Int) (h : l.Pairwise (· < ·)) : sortDedup l = l := by
  induction l with
  | nil => rfl
  | cons x xs ih =>
    rw [List.pairwise_cons] at h
    rw [sortDedup_cons, ih h.2, insertUnique_of_lt x xs h.1]

theorem mem_insertUnique (x y : Int) (l : List Int) :
    y ∈ insertUnique x l ↔ y = x ∨ y ∈ l := by
  induction l with
  | nil => simp [insertUnique]
  | cons z zs ih =>
    by_cases h1 : x = z
    · subst h1
      simp only [insertUnique, if_pos rfl]
      constructor
      · intro h2; exact Or.inr h2
      · intro h2
        rcases h2 with rfl | h3
        · exact List.mem_cons_self _ _
        · exact h3
    · by_cases h2 : x < z
      · simp only [insertUnique, if_neg h1, if_pos h2, List.mem_cons]
      · simp only [insertUnique, if_neg h1, if_neg h2, List.mem_cons, ih]
        tauto

theorem mem_sortDedup (x : Int) (l : List Int) : x ∈ sortDedup l ↔ x ∈ l := by
  induction l with
  | nil => simp [sortDedup]
  | cons y ys ih =>
    rw [sortDedup_cons, mem_insertUnique, ih, List.mem_cons]

theorem parsePart_def (total : Int) (p : List Char) :
    parsePart total p
      = if '-' ∈ pystrip p then
          match pyint (splitDash1 (pystrip p)).1, pyint (splitDash1 (pystrip p)).2 with
          | some s0, some e0 => Except.ok (rangeList (max 1 s0 - 1) (min total e0))
          | _, _ => Except.error ()
        else
          match pyint (pystrip p) with
          | some n => Except.ok (if 1 ≤ n ∧ n ≤ total then [n - 1] else [])
          | none => Except.error () := rfl

theorem parsePart_dash_ok (total : Int) (p : List Char) (s0 e0 : Int)
    (hd : '-' ∈ pystrip p)
    (h1 : pyint (splitDash1 (pystrip p)).1 = some s0)
    (h2 : pyint (splitDash1 (pystrip p)).2 = some e0) :
    parsePart total p = Except.ok (rangeList (max 1 s0 - 1) (min total e0)) := by
  rw [parsePart_def, if_pos hd, h1, h2]

theorem parsePart_bounds (total : Int) (p : List Char) (xs : List Int)
    (h : parsePart total p = Except.ok xs) : ∀ x ∈ xs, 0 ≤ x ∧ x < total := by
  by_cases hd : '-' ∈ pystrip p
  · cases h1 : pyint (splitDash1 (pystrip p)).1 with
    | none =>
      cases h2 : pyint (splitDash1 (pystrip p)).2 with
      | none =>
        have heq : parsePart total p = Except.error () := by
          rw [parsePart_def, if_pos hd, h1, h2]
        rw [heq] at h
        cases h
      | some e0 =>
        have heq : parsePart total p = Except.error () := by
          rw [parsePart_def, if_pos hd, h1, h2]
        rw [heq] at h
        cases h
    | some s0 =>
      cases h2 : pyint (splitDash1 (pystrip p)).2 with
      | none =>
        have heq : parsePart total p = Except.error () := by
          rw [parsePart_def, if_pos hd, h1, h2]
        rw [heq] at h
        cases h
      | some e0 =>
        rw [parsePart_dash_ok total p s0 e0 hd h1 h2] at h
        cases h
        intro x hx
        rw [mem_rangeList] at hx
        have ha := le_max_left (1 : Int) s0
        have hb := min_le_left total e0
        omega
  · cases h1 : pyint (pystrip p) with
    | none =>
      have heq : parsePart total p = Except.error () := by
        rw [parsePart_def, if_neg hd, h1]
      rw [heq] at h
      cases h
    | some n =>
      have heq : parsePart total p
          = Except.ok (if 1 ≤ n ∧ n ≤ total then [n - 1] else []) := by
        rw [parsePart_def, if_neg hd, h1]
      rw [heq] at h
      by_cases hn : 1 ≤ n ∧ n ≤ total
      · rw [if_pos hn] at h
        cases h
        intro x hx
        rcases List.mem_cons.mp hx with rfl | hx2
        · omega
        · cases hx2
      · rw [if_neg hn] at h
        cases h
        intro x hx
        cases hx

theorem parseParts_nil (total : Int) : parseParts total [] = Except.ok [] := rfl

theorem parseParts_cons (total : Int) (p : List Char) (ps : List (List Char)) :
    parseParts total (p :: ps)
      = match parsePart total p, parseParts total ps with
        | Except.ok xs, Except.ok ys => Except.ok (xs ++ ys)
        | Except.error e, _ => Except.error e
        | _, Except.error e => Except.error e := rfl

theorem parseParts_bounds (total : Int) (ps : List (List Char)) (xs : List Int)
    (h : parseParts total ps = Except.ok xs) : ∀ x ∈ xs, 0 ≤ x ∧ x < total := by
  induction ps generalizing xs with
  | nil =>
    cases h
    intro x hx
    cases hx
  | cons p rest ih =>
    cases h1 : parsePart total p with
    | error e =>
      cases h2 : parseParts total rest with
      | error f =>
        have heq : parseParts total (p :: rest) = Except.error e := by
          rw [parseParts_cons, h1, h2]
        rw [heq] at h
        cases h
      | ok zs =>
        have heq : parseParts total (p :: rest) = Except.error e := by
          rw [parseParts_cons, h1, h2]
        rw [heq] at h
        cases h
    | ok ys =>
      cases h2 : parseParts total rest with
      | error e =>
        have heq : parseParts total (p :: rest) = Except.error e := by
          rw [parseParts_cons, h1, h2]
        rw [heq] at h
        cases h
      | ok zs =>
        have heq : parseParts total (p :: rest) = Except.ok (ys ++ zs) := by
          rw [parseParts_cons, h1, h2]
        rw [heq] at h
        cases h
        intro x hx
        rcases List.mem_append.mp hx with hx1 | hx2
        · exact parsePart_bounds total p ys h1 x hx1
        · exact ih zs h2 x hx2

theorem parse_page_range_bounds (s : List Char) (total : Int) (l : List Int)
    (h : parse_page_range s total = Except.ok l) : ∀ x ∈ l, 0 ≤ x ∧ x < total := by
  unfold parse_page_range at h
  cases h0 : parseParts total (splitOnComma s) with
  | error e =>
    rw [h0] at h
    cases h
  | ok xs =>
    rw [h0] at h
    have h3 : (Except.ok (sortDedup xs) : Except Unit (List Int)) = Except.ok l := h
    cases h3
    intro x hx
    exact parseParts_bounds total _ xs h0 x ((mem_sortDedup x xs).mp hx)

theorem clean_cell_blank (c : Option String) (h : blankCell c = true) :
    clean_cell c = "" := by
  cases c with
  | none => rfl
  | some s =>
    have hall : ∀ x ∈ s.data, isPySpace x = true := by
      simpa [blankCell, List.all_eq_true] using h
    show String.mk (List.intercalate [' '] (splitWs (pystrip s.data))) = ""
    have h1 : pystrip s.data = [] := by
      unfold pystrip
      rw [dropWhile_all _ _ hall]
      rfl
    rw [h1]
    rfl

theorem clean_table_blank (t : List (List (Option String)))
    (h : ∀ row ∈ t, ∀ c ∈ row, blankCell c = true) : clean_table t = [] := by
  induction t with
  | nil => rfl
  | cons row rest ih =>
    have hany : (row.map clean_cell).any (fun cell => cell != "") = false := by
      rw [List.any_eq_false]
      intro cell hc
      rcases List.mem_map.mp hc with ⟨c, hcr, rfl⟩
      rw [clean_cell_blank c (h row (List.mem_cons_self row rest) c hcr)]
      simp
    rw [clean_table_cons, hany]
    simp only [Bool.false_eq_true, if_false]
    exact ih (fun r hr c hc => h r (List.mem_cons_of_mem row hr) c hc)

/-! The claims. -/

/-- C1: for every page-range string of the form `"a-b"` (a numeral `da`
denoting `a`, a dash, a numeral `db` denoting `b`) with
`1 ≤ a ≤ b ≤ total_pages`, `parse_page_range` returns exactly the zero-based
indices `a-1, ..., b-1`, with no duplicates and in ascending order. -/
theorem parse_page_range_dash (da db : List Char) (a b total : Int)
    (hda : digitsOk da = true) (hdb : digitsOk db = true)
    (ha : pyint da = some a) (hb : pyint db = some b)
    (h1 : 1 ≤ a) (hab : a ≤ b) (hbt : b ≤ total) :
    ∃ r, parse_page_range (da ++ '-' :: db) total = Except.ok r ∧
      r.Pairwise (· < ·) ∧ ∀ x : Int, (x ∈ r ↔ a - 1 ≤ x ∧ x ≤ b - 1) := by
  have hcda := digitsOk_chars da hda
  have hcdb := digitsOk_chars db hdb
  have hall : ∀ c ∈ da ++ '-' :: db, isPySpace c = false ∧ ¬ c = ',' := by
    intro c hc
    rcases List.mem_append.mp hc with hm | hm
    · have hs := digit_not_special c (hcda c hm)
      exact ⟨hs.1, hs.2.1⟩
    · rcases List.mem_cons.mp hm with rfl | hm2
      · exact ⟨by decide, by decide⟩
      · have hs := digit_not_special c (hcdb c hm2)
        exact ⟨hs.1, hs.2.1⟩
  have hsplit : splitOnComma (da ++ '-' :: db) = [da ++ '-' :: db] :=
    splitOnComma_no_comma _ (fun c hc => (hall c hc).2)
  have hstrip : pystrip (da ++ '-' :: db) = da ++ '-' :: db :=
    pystrip_eq_self _ (fun c hc => (hall c hc).1)
  have hdash : '-' ∈ pystrip (da ++ '-' :: db) := by
    rw [hstrip]
    exact List.mem_append.mpr (Or.inr (List.mem_cons_self _ _))
  have hnodash : ¬ '-' ∈ da := by
    intro hdm
    exact (digit_not_special '-' (hcda '-' hdm)).2.2 rfl
  have hsd : splitDash1 (pystrip (da ++ '-' :: db)) = (da, db) := by
    rw [hstrip]
    exact splitDash1_append da db hnodash
  have hp1 : pyint (splitDash1 (pystrip (da ++ '-' :: db))).1 = some a := by
    rw [hsd]
    exact ha
  have hp2 : pyint (splitDash1 (pystrip (da ++ '-' :: db))).2 = some b := by
    rw [hsd]
    exact hb
  have hpart := parsePart_dash_ok total (da ++ '-' :: db) a b hdash hp1 hp2
  rw [max_eq_right h1, min_eq_right hbt] at hpart
  have hpw : (rangeList (a - 1) b).Pairwise (· < ·) := rangeList_pairwise _ _
  refine ⟨rangeList (a - 1) b, ?_, hpw, ?_⟩
  · unfold parse_page_range
    rw [hsplit, parseParts_cons, hpart, parseParts_nil]
    show Except.ok (sortDedup (rangeList (a - 1) b ++ []))
      = (Except.ok (rangeList (a - 1) b) : Except Unit (List Int))
    rw [List.append_nil, sortDedup_eq_self _ hpw]
  · intro x
    rw [mem_rangeList]
    omega

/-- C1 witness: the page-range string "1-3" with 5 total pages. -/
theorem parse_page_range_dash_witness :
    ∃ r, parse_page_range (['1'] ++ '-' :: ['3']) 5 = Except.ok r ∧
      r.Pairwise (· < ·) ∧ ∀ x : Int, (x ∈ r ↔ 1 - 1 ≤ x ∧ x ≤ 3 - 1) :=
  parse_page_range_dash ['1'] ['3'] 1 3 5 (by decide) (by decide) (by decide) (by decide)
    (by decide) (by decide) (by decide)

/-- C2 counterexample: `parse_page_range` applied to the empty string does
not return an empty result; it raises `ValueError` (because `int('')`
raises), modelled as `Except.error ()`. -/
theorem parse_page_range_empty_raises :
    parse_page_range [] 5 = Except.error () ∧ ¬ parse_page_range [] 5 = Except.ok [] := by
  exact ⟨rfl, by decide⟩

/-- C2 amended: on an empty string or an unparsable token `parse_page_range`
raises `ValueError` (it does not return an empty result); only a parsable
range whose pages are all out of bounds yields the empty list that makes the
caller exit with an error. -/
theorem parse_page_range_error_behavior :
    (∀ total : Int, parse_page_range [] total = Except.error ()) ∧
    (∀ total : Int, parse_page_range ['a', 'b', 'c'] total = Except.error ()) ∧
    parse_page_range ['7'] 5 = Except.ok [] := by
  exact ⟨fun total => rfl, fun total => rfl, by decide⟩

/-- C3: when `header_row` is set and in bounds, `write_csv` writes that row
first, followed by the remaining rows in their original relative order
(`eraseIdx` of the header position); when it is `None` or out of bounds the
rows are written unchanged; on `[["a","b"],["H1","H2"],["c","d"]]` with
header row 1 the written sequence is `["H1","H2"], ["a","b"], ["c","d"]`. -/
theorem write_csv_header_promotion :
    (∀ (rows : List (List String)) (h : Int),
      (∀ (h0 : 0 ≤ h) (h1 : h < (rows.length : Int)),
        ∃ hh : h.toNat < rows.length,
          write_csv_rows rows (some h)
            = rows.get ⟨h.toNat, hh⟩ :: rows.eraseIdx h.toNat) ∧
      write_csv_rows rows none = rows ∧
      (¬(0 ≤ h ∧ h < (rows.length : Int)) → write_csv_rows rows (some h) = rows)) ∧
    write_csv_rows [["a", "b"], ["H1", "H2"], ["c", "d"]] (some 1)
      = [["H1", "H2"], ["a", "b"], ["c", "d"]] := by
  constructor
  · intro rows h
    refine ⟨?_, rfl, ?_⟩
    · intro h0 h1
      have hh : h.toNat < rows.length := by omega
      refine ⟨hh, ?_⟩
      rw [write_csv_rows_some, if_pos ⟨h0, h1⟩, List.eraseIdx_eq_take_drop_succ,
        getD_eq_get rows h.toNat hh]
    · intro hc
      rw [write_csv_rows_some, if_neg hc]
  · decide

/-- C3 witness: header row 1 on the three-row example, and an out-of-bounds
header row 5 leaving the rows unchanged. -/
theorem write_csv_header_promotion_witness :
    (∃ hh : (1 : Int).toNat < ([["a", "b"], ["H1", "H2"], ["c", "d"]] : List (List String)).length,
      write_csv_rows [["a", "b"], ["H1", "H2"], ["c", "d"]] (some 1)
        = ([["a", "b"], ["H1", "H2"], ["c", "d"]] : List (List String)).get ⟨(1 : Int).toNat, hh⟩
          :: ([["a", "b"], ["H1", "H2"], ["c", "d"]] : List (List String)).eraseIdx (1 : Int).toNat) ∧
    write_csv_rows [["a", "b"], ["H1", "H2"], ["c", "d"]] (some 5)
      = [["a", "b"], ["H1", "H2"], ["c", "d"]] :=
  ⟨(write_csv_header_promotion.1 [["a", "b"], ["H1", "H2"], ["c", "d"]] 1).1
      (by decide) (by decide),
   (write_csv_header_promotion.1 [["a", "b"], ["H1", "H2"], ["c", "d"]] 5).2.2 (by decide)⟩

/-- C4: every table the orchestrator passes to `write_csv` (the result of
`normalize_column_count` after `clean_table`) has the same length for all of
its rows, and so does every row list actually written to a CSV file. -/
theorem written_tables_rectangular :
    (∀ t : List (List (Option String)),
      ∀ r1 ∈ normalize_column_count (clean_table t),
        ∀ r2 ∈ normalize_column_count (clean_table t), r1.length = r2.length) ∧
    (∀ (hdr : Option Int) (ts : List (List (List (Option String)))),
      ∀ w ∈ (process_tables hdr ts).2, ∀ r1 ∈ w, ∀ r2 ∈ w, r1.length = r2.length) := by
  constructor
  · intro t r1 hm1 r2 hm2
    rw [normalize_row_length _ r1 hm1, normalize_row_length _ r2 hm2]
  · intro hdr ts w hw r1 hm1 r2 hm2
    rcases process_tables_written hdr ts w hw with ⟨t, rfl⟩
    have m1 := write_csv_rows_mem _ hdr r1 hm1
    have m2 := write_csv_rows_mem _ hdr r2 hm2
    rw [normalize_row_length _ r1 m1, normalize_row_length _ r2 m2]

/-- C4 witness: a concrete ragged raw table whose normalized rows have equal
length. -/
theorem written_tables_rectangular_witness :
    (["a", ""] : List String).length = (["b", "c"] : List String).length :=
  written_tables_rectangular.1 [[some "a"], [some "b", some "c"]]
    ["a", ""] (by decide) ["b", "c"] (by decide)

/-- C5: cleaning is idempotent: running `clean_table` on its own output
(whose cells are plain strings, re-embedded as non-`None` raw cells) returns
that output unchanged. -/
theorem clean_table_idempotent (t : List (List (Option String))) :
    clean_table (embedCleaned (clean_table t)) = clean_table t := by
  induction t with
  | nil => rfl
  | cons row rest ih =>
    rw [clean_table_cons]
    by_cases hrow : (row.map clean_cell).any (fun cell => cell != "") = true
    · rw [if_pos hrow]
      have hembed : embedCleaned (row.map clean_cell :: clean_table rest)
          = (row.map clean_cell).map some :: embedCleaned (clean_table rest) := rfl
      rw [hembed, clean_table_cons, clean_row_idem row, if_pos hrow, ih]
    · rw [if_neg hrow, ih]

/-- C6: on a non-empty table `maxCols` is the maximum row length (an upper
bound that is attained), every row of the normalized table has exactly that
length, normalization is idempotent, and the empty table passes through
unchanged. -/
theorem normalize_column_count_spec (t : List (List String)) :
    (t ≠ [] →
      (∀ r ∈ t, r.length ≤ maxCols t) ∧
      (∃ r ∈ t, r.length = maxCols t) ∧
      (∀ r ∈ normalize_column_count t, r.length = maxCols t)) ∧
    normalize_column_count (normalize_column_count t) = normalize_column_count t ∧
    normalize_column_count ([] : List (List String)) = [] :=
  ⟨fun hne => ⟨maxCols_le t, maxCols_attained t hne, normalize_row_length t⟩,
    normalize_idem t, rfl⟩

/-- C6 witness: the ragged table `[["a"], ["b","c"]]`. -/
theorem normalize_column_count_spec_witness :
    ((∀ r ∈ ([["a"], ["b", "c"]] : List (List String)), r.length ≤ maxCols [["a"], ["b", "c"]]) ∧
     (∃ r ∈ ([["a"], ["b", "c"]] : List (List String)), r.length = maxCols [["a"], ["b", "c"]]) ∧
     (∀ r ∈ normalize_column_count [["a"], ["b", "c"]], r.length = maxCols [["a"], ["b", "c"]])) ∧
    normalize_column_count (normalize_column_count [["a"], ["b", "c"]])
      = normalize_column_count [["a"], ["b", "c"]] ∧
    normalize_column_count ([] : List (List String)) = [] :=
  ⟨(normalize_column_count_spec [["a"], ["b", "c"]]).1 (by decide),
   (normalize_column_count_spec [["a"], ["b", "c"]]).2⟩

/-- C7: a single-page token whose value is outside `[1, total_pages]`
contributes nothing (its part resolves to the empty list, with no error),
and the index `n - 1` of an out-of-bounds `n` never appears in any result of
`parse_page_range`. -/
theorem out_of_range_single_dropped :
    (∀ (part0 : List Char) (n total : Int),
      ¬ '-' ∈ pystrip part0 → pyint (pystrip part0) = some n →
        ¬(1 ≤ n ∧ n ≤ total) → parsePart total part0 = Except.ok []) ∧
    (∀ (s : List Char) (total n : Int) (l : List Int),
      parse_page_range s total = Except.ok l → ¬(1 ≤ n ∧ n ≤ total) →
        ¬ (n - 1) ∈ l) := by
  constructor
  · intro part0 n total hnd hp hout
    rw [parsePart_def, if_neg hnd, hp]
    show Except.ok (if 1 ≤ n ∧ n ≤ total then [n - 1] else [])
      = (Except.ok [] : Except Unit (List Int))
    rw [if_neg hout]
  · intro s total n l h hout hmem
    have := parse_page_range_bounds s total l h (n - 1) hmem
    omega

/-- C7 witness: token "7" with 5 total pages. -/
theorem out_of_range_single_dropped_witness :
    parsePart 5 ['7'] = Except.ok [] ∧ ¬ ((7 : Int) - 1) ∈ ([] : List Int) :=
  ⟨out_of_range_single_dropped.1 ['7'] 7 5 (by decide) (by decide) (by decide),
   out_of_range_single_dropped.2 ['7'] 5 7 [] (by decide) (by decide)⟩

/-- C8: a raw table whose cells are all `None` or whitespace-only cleans to
the empty table, and the orchestrator skips it entirely: no CSV rows are
recorded for it and the table count is unchanged, processing continuing with
the remaining tables. -/
theorem blank_table_skipped (t : List (List (Option String)))
    (ts : List (List (List (Option String)))) (hdr : Option Int)
    (h : ∀ row ∈ t, ∀ c ∈ row, blankCell c = true) :
    clean_table t = [] ∧ process_tables hdr (t :: ts) = process_tables hdr ts := by
  have hct : clean_table t = [] := clean_table_blank t h
  exact ⟨hct, by rw [process_tables_cons, if_pos hct]⟩

/-- C8 witness: the raw table `[[" ", None]]`. -/
theorem blank_table_skipped_witness :
    clean_table [[some " ", none]] = [] ∧
    process_tables none [[[some " ", none]]] = process_tables none [] :=
  blank_table_skipped [[some " ", none]] [] none (by decide)

/-- C9: a negative `header_row` fails the bounds check `0 <= header_row <
len(rows)`, so the rows are written unchanged; Python negative indexing is
never applied. -/
theorem negative_header_row_ignored (rows : List (List String)) (h : Int)
    (hneg : h < 0) : write_csv_rows rows (some h) = rows := by
  rw [write_csv_rows_some, if_neg (by omega)]

/-- C9 witness: header row -1. -/
theorem negative_header_row_ignored_witness :
    write_csv_rows [["a", "b"]] (some (-1)) = [["a", "b"]] :=
  negative_header_row_ignored [["a", "b"]] (-1) (by decide)

/-- C10: `normalize_column_count` only pads: the output has exactly as many
rows as the input, and each output row is the corresponding input row
extended on the right with zero or more empty-string cells. -/
theorem normalize_only_pads (t : List (List String)) (i : Nat) :
    (normalize_column_count t).length = t.length ∧
    (i < t.length →
      ∃ r k, t.get? i = some r ∧
        (normalize_column_count t).get? i = some (r ++ List.replicate k "")) :=
  ⟨normalize_length t, fun h => normalize_get t i h⟩

/-- C10 witness: row 0 of the ragged table `[["a"], ["b","c"]]`. -/
theorem normalize_only_pads_witness :
    (normalize_column_count [["a"], ["b", "c"]]).length
      = ([["a"], ["b", "c"]] : List (List String)).length ∧
    ∃ r k, ([["a"], ["b", "c"]] : List (List String)).get? 0 = some r ∧
      (normalize_column_count [["a"], ["b", "c"]]).get? 0 = some (r ++ List.replicate k "") :=
  ⟨(normalize_only_pads [["a"], ["b", "c"]] 0).1,
   (normalize_only_pads [["a"], ["b", "c"]] 0).2 (by decide)⟩

end ExtractTable
